import Mathlib

/-!
Verification of the retrieval / prompt-assembly core of a portfolio chat
backend (`server/index.js`).  Strings are modelled as `List Char`; the
JavaScript string operations used by the source (`toLowerCase`, `trim`,
`includes`, `split` on fixed regexes, `endsWith`, `replace` with a string
pattern) are embedded as executable functions on `List Char`, faithful to
their ECMAScript semantics on the ASCII alphabet the repository uses.
-/

namespace Portfolio

/-- JS `String.prototype.toLowerCase`, per character.  For the ASCII
letters used by this repository it coincides with `Char.toLower`. -/
def lowerChar (c : Char) : Char := c.toLower

/-- JS `String.prototype.trim`: drop leading and trailing whitespace.
`Char.isWhitespace` covers the ASCII whitespace the repository uses. -/
def jsTrim (s : List Char) : List Char :=
  ((s.dropWhile Char.isWhitespace).reverse.dropWhile Char.isWhitespace).reverse

/-- JS regex word character class `\w` = `[A-Za-z0-9_]`. -/
def isWordChar (c : Char) : Bool := c.isAlphanum || c == '_'

/-- The character of `t` at index `i`, as a word/non-word flag; positions
outside the string count as non-word (regex `\b` semantics). -/
def wordAt (t : List Char) (i : Nat) : Bool :=
  match t.get? i with
  | some c => isWordChar c
  | none => false

/-- JS regex `\b` holds at position `i` of `t` iff exactly one side of the
position is a word character (string edges count as non-word). -/
def boundaryAt (t : List Char) (i : Nat) : Bool :=
  (if i = 0 then false else wordAt t (i - 1)) != wordAt t i

/-- JS `String.prototype.includes`: `q` occurs as a contiguous substring
of `t`. -/
def jsIncludes (t q : List Char) : Bool :=
  (List.range (t.length + 1)).any fun i => (t.drop i).take q.length == q

/-- `q` occurs in `t` starting at index `i` (specification-level form of
substring occurrence). -/
def substrOccursAt (t q : List Char) (i : Nat) : Prop :=
  i + q.length ≤ t.length ∧ (t.drop i).take q.length = q

/-- Test of the regex `\b<escaped q>\b` with the `i` flag against `t`,
both already lowercased by the caller: a literal occurrence of `q`
delimited by word boundaries on both sides. -/
def wbMatch (t q : List Char) : Bool :=
  (List.range (t.length + 1)).any fun i =>
    ((t.drop i).take q.length == q) && boundaryAt t i && boundaryAt t (i + q.length)

/-- JS regex `/^\d{6,}$/`: entirely ASCII digits, at least six of them. -/
def isNumericId (q : List Char) : Bool :=
  decide (6 ≤ q.length) && q.all Char.isDigit

/-- `containsTerm(text, term)` from `server/index.js`: numeric identifiers
of length ≥ 6 match by plain substring containment, every other nonempty
term by a word-boundary-delimited case-insensitive match. -/
def containsTerm (text term : List Char) : Bool :=
  let t := text.map lowerChar
  let q := jsTrim (term.map lowerChar)
  if q.isEmpty then false
  else if isNumericId q then jsIncludes t q
  else wbMatch t q

/-- `String.prototype.replace` with the fixed string pattern `pat`
(assumed nonempty, as at the single call site where it is `".md"`) and
empty replacement: remove the first occurrence of `pat`, if any. -/
def replaceFirst (pat : List Char) : List Char → List Char
  | [] => []
  | c :: rest =>
    if pat.isPrefixOf (c :: rest) then rest.drop (pat.length - 1)
    else c :: replaceFirst pat rest

/-- Splitting state machine for JS `split(/\n{2,}/g)`: `acc` holds the
current token reversed, `pending` counts the newlines seen immediately
before the cursor.  A run of two or more newlines is a separator; shorter
runs stay inside the token, exactly as the regex matches. -/
def splitParsAux : List Char → List Char → Nat → List (List Char)
  | [], acc, pending =>
    if 2 ≤ pending then [acc.reverse, []]
    else [acc.reverse ++ List.replicate pending '\n']
  | c :: rest, acc, pending =>
    if c = '\n' then splitParsAux rest acc (pending + 1)
    else if 2 ≤ pending then acc.reverse :: splitParsAux rest [c] 0
    else splitParsAux rest (c :: (List.replicate pending '\n' ++ acc)) 0

/-- JS `text.split(/\n{2,}/g)`. -/
def splitPars (text : List Char) : List (List Char) := splitParsAux text [] 0

/-- The paragraph list of `chunkText`: split on blank-line runs, trim each
part, drop the empty ones (`.filter(Boolean)`). -/
def jsParagraphs (text : List Char) : List (List Char) :=
  ((splitPars text).map jsTrim).filter (fun p => !p.isEmpty)

/-- The blank-line separator `"\n\n"`. -/
def nl2 : List Char := ['\n', '\n']

/-- The paragraph-packing loop of `chunkText`: `buf` is the running
buffer, the returned list is the emitted chunks in order. -/
def chunkGo (maxLen : Nat) : List (List Char) → List Char → List (List Char)
  | [], buf => if buf.isEmpty then [] else [buf]
  | p :: ps, buf =>
    if maxLen < (buf ++ nl2 ++ p).length then
      if buf.isEmpty then chunkGo maxLen ps p
      else buf :: chunkGo maxLen ps p
    else
      chunkGo maxLen ps (if buf.isEmpty then p else buf ++ nl2 ++ p)

/-- `chunkText(text, maxLen)` from `server/index.js` (the source defaults
`maxLen` to 900; callers here pass it explicitly). -/
def chunkText (text : List Char) (maxLen : Nat) : List (List Char) :=
  chunkGo maxLen (jsParagraphs text) []

/-- JS `Array.prototype.join(sep)`. -/
def joinSep (sep : List Char) : List (List Char) → List Char
  | [] => []
  | [x] => x
  | x :: y :: xs => x ++ sep ++ joinSep sep (y :: xs)

/-! ### Profile store and resolver -/

/-- A persona record as read from `profiles.json`.  Each field is
`none` when the corresponding property is absent (or not of the type the
source checks for at its use site). -/
structure Profile where
  name : Option (List Char)
  tone : Option (List Char)
  systemPrompt : Option (List Char)
  rules : Option (List Char)
  notes : Option (List Char)
  aliases : Option (List (List Char))
  knowledgeFiles : Option (List (List Char))
deriving DecidableEq

/-- The persona with every field absent. -/
def emptyProfile : Profile := ⟨none, none, none, none, none, none, none⟩

/-- The literal `"default"`. -/
def defaultId : List Char := "default".data

/-- The in-memory `PROFILES` value: the default pointer and the
insertion-ordered `id ↦ persona` mapping. -/
structure Store where
  default : List Char
  profiles : List (List Char × Profile)
deriving DecidableEq

/-- `normalizeProfileId(id)`: `String(id || "").trim().toLowerCase()`. -/
def normalizeProfileId (id : List Char) : List Char :=
  (jsTrim id).map lowerChar

/-- The detection term set built by `inferProfileIdFromMessage` for one
persona: its normalized id, the first whitespace-delimited token of its
display name, the full display name, and every nonblank alias, all
lowercased.  The source collects these in a `Set`, which only removes
duplicates; duplicates cannot change whether *some* term matches, so the
plain list is used here. -/
def profileTerms (id : List Char) (p : Profile) : List (List Char) :=
  let pid := normalizeProfileId id
  let nameTerms :=
    match p.name with
    | some n =>
      if n.isEmpty then []
      else
        let first := (n.takeWhile (fun c => !c.isWhitespace)).map lowerChar
        (if first.isEmpty then [] else [first]) ++ [n.map lowerChar]
    | none => []
  let aliasTerms :=
    match p.aliases with
    | some as =>
      (as.filter (fun a => !(jsTrim a).isEmpty)).map (fun a => (jsTrim a).map lowerChar)
    | none => []
  pid :: (nameTerms ++ aliasTerms)

/-- `inferProfileIdFromMessage(message)`: scan the personas in insertion
order and return the normalized id of the first one that has a term
contained in the lowercased message. -/
def inferProfileIdFromMessage (st : Store) (message : List Char) : Option (List Char) :=
  let msg := message.map lowerChar
  match st.profiles.find? (fun e => (profileTerms e.1 e.2).any (fun term => containsTerm msg term)) with
  | some e => some (normalizeProfileId e.1)
  | none => none

/-- The resolver's result: `{ id: ..., ...profile }`. -/
structure ActiveProfile where
  id : List Char
  profile : Profile
deriving DecidableEq

/-- `getActiveProfile(profileId, userMessage)` from `server/index.js`:
explicit request (normalized, exact key lookup), then inference from the
message, then the (normalized) default pointer, then the bare
`{ id: "default" }` persona. -/
def getActiveProfile (st : Store) (profileId : Option (List Char)) (userMessage : List Char) : ActiveProfile :=
  let requested := normalizeProfileId (profileId.getD [])
  match (if requested.isEmpty then none else st.profiles.lookup requested) with
  | some p => ⟨requested, p⟩
  | none =>
    let inferred := inferProfileIdFromMessage st userMessage
    match (match inferred with
           | some i => if i.isEmpty then none else (st.profiles.lookup i).map (fun p => (⟨i, p⟩ : ActiveProfile))
           | none => none) with
    | some ap => ap
    | none =>
      let d := (fun d0 => if d0.isEmpty then defaultId else d0) (normalizeProfileId st.default)
      match st.profiles.lookup d with
      | some p => ⟨d, p⟩
      | none => ⟨defaultId, emptyProfile⟩

/-! ### Knowledge chunks and keyword retrieval -/

/-- A knowledge chunk: originating file name plus text segment. -/
structure Chunk where
  source : List Char
  text : List Char
deriving DecidableEq

/-- A chunk together with its query score (`{...ch, score}`). -/
structure ScoredChunk where
  source : List Char
  text : List Char
  score : Nat
deriving DecidableEq

/-- The query terms of `retrieveByKeywords`: the lowercased query `q`
split on runs of non-word characters, keeping terms of length ≥ 3.
(`q.split(/\W+/)` also yields empty boundary tokens, which the length
filter removes; `wordRunsAux` omits them directly.) -/
def wordRunsAux : List Char → List Char → List (List Char)
  | [], acc => if acc.isEmpty then [] else [acc.reverse]
  | c :: rest, acc =>
    if isWordChar c then wordRunsAux rest (c :: acc)
    else if acc.isEmpty then wordRunsAux rest []
    else acc.reverse :: wordRunsAux rest []

/-- Maximal runs of word characters of `s`. -/
def wordRuns (s : List Char) : List (List Char) := wordRunsAux s []

/-- Terms of the (already lowercased) query: length ≥ 3 only. -/
def queryTerms (q : List Char) : List (List Char) :=
  (wordRuns q).filter (fun t => 3 ≤ t.length)

/-- The literal pattern `".md"`. -/
def mdStr : List Char := ".md".data

/-- The score `retrieveByKeywords` computes for one chunk against the
(already lowercased) query `q`: one point per term of the term list that
occurs in the lowercased chunk text, plus 2 when the source name with its
first `".md"` occurrence removed, lowercased, occurs in `q`. -/
def chunkScore (q : List Char) (ch : Chunk) : Nat :=
  let t := ch.text.map lowerChar
  let base := (queryTerms q).foldl (fun s term => if jsIncludes t term then s + 1 else s) 0
  let fileHint := (replaceFirst mdStr ch.source).map lowerChar
  if jsIncludes q fileHint then base + 2 else base

/-- The `chunks.map((ch) => ({...ch, score}))` stage of
`retrieveByKeywords`, against the already lowercased query `q`. -/
def scoredChunks (q : List Char) (chunks : List Chunk) : List ScoredChunk :=
  chunks.map (fun ch => ⟨ch.source, ch.text, chunkScore q ch⟩)

/-- Stable insertion for descending sort by `key`: the new element passes
only elements with strictly smaller key, so equal keys keep their
insertion order. -/
def insertScoreDesc {α : Type} (key : α → Nat) (x : α) : List α → List α
  | [] => [x]
  | y :: ys => if key y < key x then x :: y :: ys else y :: insertScoreDesc key x ys

/-- `Array.prototype.sort((a, b) => b.score - a.score)`: ECMAScript
requires the result to be sorted by the comparator and stable, which
determines it uniquely; stable insertion sort realizes it. -/
def jsStableSortDesc {α : Type} (key : α → Nat) (l : List α) : List α :=
  l.foldl (fun acc x => insertScoreDesc key x acc) []

/-- `retrieveByKeywords(query, chunks, k)` from `server/index.js` (the
source defaults `k` to 6; callers here pass it explicitly). -/
def retrieveByKeywords (query : List Char) (chunks : List Chunk) (k : Nat) : List ScoredChunk :=
  let q := query.map lowerChar
  ((jsStableSortDesc (fun sc => sc.score)
      ((scoredChunks q chunks).filter (fun sc => 0 < sc.score))).take k)

/-! ### Prompt assembler -/

/-- The optional legacy single-profile record (`profile.json`); only the
three fields the assembler reads are modelled. -/
structure LegacyProfile where
  preferredName : Option (List Char)
  name : Option (List Char)
  tone : Option (List Char)
deriving DecidableEq

/-- JS `a || b` on an optional string: take `a` when it is a nonempty
string, else `b`. -/
def jsOrStr (o : Option (List Char)) (fallback : List Char) : List Char :=
  match o with
  | some s => if s.isEmpty then fallback else s
  | none => fallback

/-- The `SYSTEM_PROMPT` constant of `server/index.js`. -/
def SYSTEM_PROMPT : List Char :=
  ("You are the AI assistant for Sankalp Singh, a Full Stack Developer based in Dallas, Texas.\n\nYour role is to:\n1. Answer questions about Sankalp\x27s experience, skills, and services professionally\n2. Provide information about availability and rates\n3. Help schedule meetings with potential clients\n4. Maintain a highly professional, helpful, and knowledgeable tone\n\nIMPORTANT GUIDELINES:\n- Always be professional, courteous, and helpful\n- Provide accurate information about Sankalp\x27s skills and experience\n- When asked about rates, provide the info but suggest a consultation for detailed quotes\n- For meeting requests, guide the user to provide: name, email, preferred date/time, and brief project description\n- Never make up information - if you don\x27t know something, say you\x27ll have Sankalp follow up\n- Keep responses concise but informative (2-4 paragraphs max)\n- Use proper business communication style\n- Do NOT use markdown headers (##). Use plain text with line breaks.\n\nIf user asks something personal/biographical and it is not in the knowledge base, do NOT guess.").data

/-- A lowercase hexadecimal digit. -/
def hexDigit (n : Nat) : Char :=
  if n < 10 then Char.ofNat (48 + n) else Char.ofNat (87 + n)

/-- The escape `JSON.stringify` applies to one character inside a string
value. -/
def jsonEscapeChar (c : Char) : List Char :=
  if c = '"' then ['\\', '"']
  else if c = '\\' then ['\\', '\\']
  else if c = '\n' then ['\\', 'n']
  else if c = '\r' then ['\\', 'r']
  else if c = '\t' then ['\\', 't']
  else if c = '\x08' then ['\\', 'b']
  else if c = '\x0c' then ['\\', 'f']
  else if c.toNat < 32 then ['\\', 'u', '0', '0', hexDigit (c.toNat / 16), hexDigit (c.toNat % 16)]
  else [c]

/-- `JSON.stringify` of a string value. -/
def jsonEscape (s : List Char) : List Char := (s.map jsonEscapeChar).flatten

/-- `JSON.stringify(obj, null, 2)` for a flat object of string fields,
given in key order; properties whose value is `undefined` have already
been dropped by the caller. -/
def jsonStringifyFields (fields : List (List Char × List Char)) : List Char :=
  match fields with
  | [] => "\x7b\x7d".data
  | _ =>
    "\x7b\n".data ++
      joinSep ",\n".data
        (fields.map (fun f => "  \"".data ++ f.1 ++ "\": \"".data ++ jsonEscape f.2 ++ "\"".data)) ++
      "\n\x7d".data

/-- `JSON.stringify(profileForPrompt, null, 2)` where `profileForPrompt`
is `{ id, name, tone, rules, notes }` (absent fields are `undefined` and
omitted by `JSON.stringify`). -/
def jsonStringifyProfile (id : List Char) (p : Profile) : List Char :=
  jsonStringifyFields
    (([("id".data, some id), ("name".data, p.name), ("tone".data, p.tone),
       ("rules".data, p.rules), ("notes".data, p.notes)]).filterMap
      (fun f => f.2.map (fun v => (f.1, v))))

/-- `getKnowledgePoolForProfile(activeProfile)`: when `knowledgeFiles` is
an array, keep only chunks whose source is in that allow-list; otherwise
the whole pool. -/
def getKnowledgePoolForProfile (active : ActiveProfile) (knowledgeChunks : List Chunk) : List Chunk :=
  match active.profile.knowledgeFiles with
  | some files => knowledgeChunks.filter (fun ch => files.contains ch.source)
  | none => knowledgeChunks

/-- The `knowledgeBlock` of `buildAssistantInstructions`: each retrieved
chunk prefixed by its bracketed source and joined by a horizontal rule. -/
def knowledgeBlockOf (top : List ScoredChunk) : List Char :=
  joinSep "\n\n---\n\n".data (top.map (fun c => "[".data ++ c.source ++ "]\n".data ++ c.text))

/-- The template returned by `buildAssistantInstructions` when no chunk
scored above zero (before the final `.trim()`). -/
def emptyKnowledgeTemplate (systemPrompt profileJson tone : List Char) : List Char :=
  "\n".data ++ systemPrompt ++ "\n\nACTIVE PROFILE:\n".data ++ profileJson ++
  "\n\nVOICE:\n- ".data ++ tone ++
  ("\n- Be specific. Avoid generic filler.\n- Ask ONE follow-up question if the user’s question is missing detail.\n- Max 6–10 sentences unless user asks for more.\n\nRULES:\n- Use the PROFILE + KNOWLEDGE as the only source of truth.\n- If missing, say: \"I don’t want to guess—if you share a bit more detail, I’ll answer accurately.\"\n- Do NOT invent personal facts or memories.\n- No markdown headers like \"##\". Plain text with line breaks.\n").data

/-- The template returned by `buildAssistantInstructions` when chunks
were retrieved (before the final `.trim()`). -/
def knowledgeTemplate (systemPrompt nm profileJson tone knowledgeBlock : List Char) : List Char :=
  "\n".data ++ systemPrompt ++ "\n\nYou are speaking as the assistant for: ".data ++ nm ++
  "\n\nACTIVE PROFILE:\n".data ++ profileJson ++
  "\n\nVOICE:\n- ".data ++ tone ++
  ("\n- Be specific. Avoid generic filler.\n- Max 6–10 sentences unless user asks for more.\n- Ask ONE follow-up question if needed.\n\nRULES:\n- Use the KNOWLEDGE excerpts as source of truth.\n- Do not invent details or memories.\n- No markdown headers like \"##\". Plain text with line breaks.\n\nKNOWLEDGE (most relevant excerpts):\n").data ++
  knowledgeBlock ++ "\n".data

/-- `buildAssistantInstructions(userMessage, profileId)` from
`server/index.js`, with the process-wide state (`LEGACY_PROFILE`,
`PROFILES`, `KNOWLEDGE_CHUNKS`) passed explicitly. -/
def buildAssistantInstructions (legacy : LegacyProfile) (st : Store) (knowledgeChunks : List Chunk)
    (userMessage : List Char) (profileId : Option (List Char)) : List Char :=
  let active := getActiveProfile st profileId userMessage
  let nm := jsOrStr active.profile.name (jsOrStr legacy.preferredName (jsOrStr legacy.name ("Sankalp Singh".data)))
  let tone := jsOrStr active.profile.tone (jsOrStr legacy.tone ("professional, confident, concise".data))
  let systemPrompt := jsOrStr active.profile.systemPrompt SYSTEM_PROMPT
  let knowledgePool := getKnowledgePoolForProfile active knowledgeChunks
  let top := retrieveByKeywords userMessage knowledgePool 6
  let profileJson := jsonStringifyProfile active.id active.profile
  if top.isEmpty then jsTrim (emptyKnowledgeTemplate systemPrompt profileJson tone)
  else jsTrim (knowledgeTemplate systemPrompt nm profileJson tone (knowledgeBlockOf top))

/-! ### Raw JSON values, loaders -/

/-- A parsed JSON value (`JSON.parse` output). -/
inductive Json where
  | null
  | bool (b : Bool)
  | num (n : Int)
  | str (s : List Char)
  | arr (elems : List Json)
  | obj (fields : List (List Char × Json))

/-- JS truthiness of a JSON value. -/
def jsTruthy : Json → Bool
  | .null => false
  | .bool b => b
  | .num n => n != 0
  | .str s => !s.isEmpty
  | .arr _ => true
  | .obj _ => true

/-- JS `typeof v === "object"` for a JSON value (arrays included; `null`
is excluded here because the source always guards with truthiness
first). -/
def jsIsObjectType : Json → Bool
  | .arr _ => true
  | .obj _ => true
  | .null => true
  | _ => false

/-- `Array.isArray`. -/
def jsIsArray : Json → Bool
  | .arr _ => true
  | _ => false

/-- JS property access `v[key]`: `none` models `undefined`. -/
def jsGetField : Json → List Char → Option Json
  | .obj fs, k => (fs.find? (fun f => f.1 == k)).map (fun f => f.2)
  | _, _ => none

/-- JS object spread `{...v}` for the values reaching shape (b) of
`normalizeProfiles` (a truthy `typeof "object"` value): objects keep
their fields, arrays become index-keyed fields. -/
def spreadFields : Json → List (List Char × Json)
  | .obj fs => fs
  | .arr xs => xs.enum.map (fun p => ((Nat.repr p.1).data, p.2))
  | _ => []

/-- The normalized profile store at the raw JSON level. -/
structure RawStore where
  default : List Char
  profiles : Json

/-- The fail-open store `{ default: "default", profiles: {} }`. -/
def canonicalStore : RawStore := ⟨"default".data, Json.obj []⟩

/-- Shape (b) of `normalizeProfiles`: copy the document, extract a string
`default` sibling key (falling back to `"default"`), delete it, and use
the rest as the profile mapping. -/
def normalizeShapeB (raw : Json) : RawStore :=
  let copy := spreadFields raw
  let d := match (copy.find? (fun f => f.1 == "default".data)).map (fun f => f.2) with
    | some (.str s) => s
    | _ => "default".data
  ⟨d, Json.obj (copy.filter (fun f => !(f.1 == "default".data)))⟩

/-- `normalizeProfiles(raw)` from `server/index.js`. -/
def normalizeProfiles (raw : Json) : RawStore :=
  if !(jsTruthy raw) || !(jsIsObjectType raw) then canonicalStore
  else
    match jsGetField raw ("profiles".data) with
    | some pj =>
      if jsTruthy pj && jsIsObjectType pj then
        ⟨(match jsGetField raw ("default".data) with
          | some (.str s) => s
          | _ => "default".data), pj⟩
      else normalizeShapeB raw
    | none => normalizeShapeB raw

/-- `loadProfiles()` from `server/index.js`.  The argument is the
combined outcome of `fs.readFile` + `JSON.parse` (both external): a
missing, unreadable or unparsable file is an `error`, which the `catch`
converts to the canonical empty store. -/
def loadProfiles (input : Except Unit Json) : RawStore :=
  match input with
  | .error _ => canonicalStore
  | .ok raw => normalizeProfiles raw

/-- One directory entry for `loadKnowledge`: a file name together with
the outcome of reading that file. -/
def chunkFile (f : List Char) (content : List Char) : List Chunk :=
  (chunkText content 900).map (fun c => ⟨f, c⟩)

/-- Read and chunk each listed markdown file in order; the first read
failure aborts (the source's `catch` then yields `[]`). -/
def readAllKnowledge : List (List Char × Except Unit (List Char)) → Except Unit (List Chunk)
  | [] => .ok []
  | (_, .error e) :: _ => .error e
  | (f, .ok content) :: rest =>
    (readAllKnowledge rest).map (fun tailChunks => chunkFile f content ++ tailChunks)

/-- `loadKnowledge()` from `server/index.js`.  The argument is the
outcome of `fs.readdir` (external): the directory listing with each
file's read outcome, or an error when the directory is missing or
unreadable.  Every failure is swallowed into the empty pool. -/
def loadKnowledge (dir : Except Unit (List (List Char × Except Unit (List Char)))) : List Chunk :=
  match dir with
  | .error _ => []
  | .ok entries =>
    let mdFiles := entries.filter (fun e => mdStr.isSuffixOf e.1)
    match readAllKnowledge mdFiles with
    | .error _ => []
    | .ok all => all

/-! ### The `/api/chat` request handler's message assembly -/

/-- The literal `"user"`. -/
def userRole : List Char := "user".data

/-- The literal `"assistant"`. -/
def assistantRole : List Char := "assistant".data

/-- A conversation turn as forwarded to the completion call. -/
structure Msg where
  role : List Char
  content : List Char
deriving DecidableEq

/-- The filter of the `/api/chat` handler: keep an entry only when it is
truthy, its `role` is `"user"` or `"assistant"`, and its `content` is a
string. -/
def validTurn (j : Json) : Bool :=
  jsTruthy j &&
  ((match jsGetField j ("role".data) with
    | some (.str s) => s == userRole || s == assistantRole
    | _ => false) &&
   (match jsGetField j ("content".data) with
    | some (.str _) => true
    | _ => false))

/-- `m.role` as a string (only evaluated on entries that passed
`validTurn`, where the property is a string). -/
def roleOf (j : Json) : List Char :=
  match jsGetField j ("role".data) with
  | some (.str s) => s
  | _ => []

/-- `m.content` as a string (only evaluated on entries that passed
`validTurn`). -/
def contentOf (j : Json) : List Char :=
  match jsGetField j ("content".data) with
  | some (.str s) => s
  | _ => []

/-- `({ role: m.role, content: m.content })`. -/
def toMsg (j : Json) : Msg := ⟨roleOf j, contentOf j⟩

/-- `safeHistory` of the `/api/chat` handler: non-arrays become `[]`,
invalid entries are dropped, then `slice(-20)` keeps the last 20. -/
def safeHistory (history : Json) : List Json :=
  match history with
  | .arr xs =>
    let fs := xs.filter validTurn
    fs.drop (fs.length - 20)
  | _ => []

/-- The `input` array handed to the completion call by `/api/chat`: the
sanitized history followed by the new user message. -/
def chatMessages (history : Json) (message : List Char) : List Msg :=
  (safeHistory history).map toMsg ++ [⟨userRole, message⟩]

/-! ### Claim-side definitions

Definitions in this section follow the wording of spec claims (not the
source); they exist to be compared against the source-derived functions
above. -/

/-- Claim-side resolver, following the claimed precedence wording
literally: (1) the persona whose stored id *case-insensitively equals*
the requested id, (2) the first persona whose term set matches the
message, (3) the persona named (verbatim) by the default pointer,
(4) the bare `default` persona. -/
def claimResolve (st : Store) (profileId : Option (List Char)) (msg : List Char) : ActiveProfile :=
  match profileId.bind (fun r => st.profiles.find? (fun e => e.1.map lowerChar == r.map lowerChar)) with
  | some e => ⟨e.1, e.2⟩
  | none =>
    match st.profiles.find? (fun e => (profileTerms e.1 e.2).any (fun term => containsTerm (msg.map lowerChar) term)) with
    | some e => ⟨e.1, e.2⟩
    | none =>
      match st.profiles.lookup st.default with
      | some p => ⟨st.default, p⟩
      | none => ⟨defaultId, emptyProfile⟩

/-- Claim-side "file name with its extension stripped": remove the part
from the last dot onward; a name without a dot is unchanged. -/
def claimStripExt (s : List Char) : List Char :=
  match s.reverse.dropWhile (fun c => c != '.') with
  | [] => s
  | _ :: rest => rest.reverse

/-- Claim-side chunk score, following the claimed wording literally:
count of *distinct* query terms occurring in the lowercased chunk text,
plus 2 when the source name with its *extension stripped*, lowercased,
occurs in the lowercased query. -/
def claimChunkScore (query : List Char) (ch : Chunk) : Nat :=
  let q := query.map lowerChar
  let terms := (queryTerms q).dedup
  let t := ch.text.map lowerChar
  (terms.filter (fun term => jsIncludes t term)).length +
    (if jsIncludes q ((claimStripExt ch.source).map lowerChar) then 2 else 0)

/-- The amended chunk-score formula: terms counted *with multiplicity*,
and the file-name bonus keyed on the source with its first `".md"`
occurrence removed (the source's `replace(".md", "")`). -/
def amendedChunkScore (query : List Char) (ch : Chunk) : Nat :=
  let q := query.map lowerChar
  (queryTerms q).countP (fun term => jsIncludes (ch.text.map lowerChar) term) +
    (if jsIncludes q ((replaceFirst mdStr ch.source).map lowerChar) then 2 else 0)

/-- The order realized by a stable descending sort of an index-tagged
list: strictly larger key first, ties in index (original position)
order. -/
def lexIdxDesc {β : Type} (key : β → Nat) (a b : Nat × β) : Prop :=
  key b.2 < key a.2 ∨ (key a.2 = key b.2 ∧ a.1 < b.1)

/-! ## Theorems -/

/-- Every chunk emitted by the packing loop is short, the current buffer,
or one of the remaining paragraphs. -/
theorem chunkGo_mem {maxLen : Nat} :
    ∀ (ps : List (List Char)) (buf c : List Char), c ∈ chunkGo maxLen ps buf →
      c.length ≤ maxLen ∨ c = buf ∨ c ∈ ps := by
  intro ps
  induction ps with
  | nil =>
    intro buf c hc
    simp only [chunkGo] at hc
    split at hc
    · simp at hc
    · simp at hc
      exact Or.inr (Or.inl hc)
  | cons p ps ih =>
    intro buf c hc
    simp only [chunkGo] at hc
    split at hc
    · split at hc
      · rcases ih p c hc with h | h | h
        · exact Or.inl h
        · exact Or.inr (Or.inr (by simp [h]))
        · exact Or.inr (Or.inr (by simp [h]))
      · rcases List.mem_cons.mp hc with h | h
        · exact Or.inr (Or.inl h)
        · rcases ih p c h with h' | h' | h'
          · exact Or.inl h'
          · exact Or.inr (Or.inr (by simp [h']))
          · exact Or.inr (Or.inr (by simp [h']))
    · rename_i hlen
      split at hc
      · rcases ih p c hc with h | h | h
        · exact Or.inl h
        · exact Or.inr (Or.inr (by simp [h]))
        · exact Or.inr (Or.inr (by simp [h]))
      · rcases ih (buf ++ nl2 ++ p) c hc with h | h | h
        · exact Or.inl h
        · exact Or.inl (by rw [h]; omega)
        · exact Or.inr (Or.inr (by simp [h]))

/-- The packing loop started on a nonempty buffer emits at least one
chunk. -/
theorem chunkGo_ne_nil {maxLen : Nat} :
    ∀ (ps : List (List Char)) (buf : List Char), buf ≠ [] → chunkGo maxLen ps buf ≠ [] := by
  intro ps
  induction ps with
  | nil =>
    intro buf hbuf
    simp only [chunkGo]
    split
    · rename_i h
      exact absurd (List.isEmpty_iff.mp h) hbuf
    · simp
  | cons p ps ih =>
    intro buf hbuf
    simp only [chunkGo]
    split
    · split
      · rename_i _ h
        exact absurd (List.isEmpty_iff.mp h) hbuf
      · simp
    · split
      · rename_i _ h
        exact absurd (List.isEmpty_iff.mp h) hbuf
      · exact ih _ (by simp [nl2])

/-- `joinSep` on a cons with a nonempty tail. -/
theorem joinSep_cons (sep x : List Char) (l : List (List Char)) (h : l ≠ []) :
    joinSep sep (x :: l) = x ++ sep ++ joinSep sep l := by
  cases l with
  | nil => exact absurd rfl h
  | cons y ys => rfl

/-- Joining the chunks of the packing loop with the blank-line separator
reconstructs the pending paragraphs (preceded by the buffer when one is
open). -/
theorem chunkGo_join {maxLen : Nat} :
    ∀ (ps : List (List Char)), (∀ p ∈ ps, p ≠ []) → ∀ (buf : List Char),
      joinSep nl2 (chunkGo maxLen ps buf) =
        joinSep nl2 (if buf.isEmpty then ps else buf :: ps) := by
  intro ps
  induction ps with
  | nil =>
    intro _ buf
    simp only [chunkGo]
  | cons p ps ih =>
    intro hnn buf
    have hp : p ≠ [] := hnn p (by simp)
    have hps : ∀ x ∈ ps, x ≠ [] := fun x hx => hnn x (by simp [hx])
    have hpe : p.isEmpty = false := by
      cases p with
      | nil => exact absurd rfl hp
      | cons _ _ => rfl
    simp only [chunkGo]
    split
    · split
      · rw [ih hps p, if_neg (by simp [hpe])]
      · rw [joinSep_cons _ _ _ (chunkGo_ne_nil ps p hp),
            ih hps p, if_neg (by simp [hpe]),
            joinSep_cons _ _ _ (show p :: ps ≠ [] by simp)]
    · split
      · rw [ih hps p, if_neg (by simp [hpe])]
      · rw [ih hps (buf ++ nl2 ++ p), if_neg (by simp [nl2])]
        cases ps with
        | nil => simp [joinSep, List.append_assoc]
        | cons r rs =>
          rw [joinSep_cons _ _ (r :: rs) (by simp),
              joinSep_cons _ _ (p :: r :: rs) (by simp),
              joinSep_cons _ _ (r :: rs) (by simp)]
          simp [List.append_assoc]

/-- C5 — Chunk cap: every chunk produced by `chunkText` has length at
most `maxLen`, except that a chunk exceeding `maxLen` is necessarily a
single source paragraph (so an oversized paragraph is never merged with
another into one chunk). -/
theorem chunkText_soft_cap (text : List Char) (maxLen : Nat) :
    ∀ c ∈ chunkText text maxLen, maxLen < c.length → c ∈ jsParagraphs text := by
  intro c hc hlen
  rcases chunkGo_mem (jsParagraphs text) [] c hc with h | h | h
  · omega
  · rw [h] at hlen
    simp at hlen
  · exact h

/-- Witness for C5: with `maxLen = 3`, the single oversized paragraph
`"abcde"` is emitted as an (oversized) chunk and is indeed a source
paragraph. -/
theorem chunkText_soft_cap_witness :
    "abcde".data ∈ chunkText "abcde".data 3 ∧ (3 : Nat) < "abcde".data.length ∧
      "abcde".data ∈ jsParagraphs "abcde".data :=
  ⟨by decide, by decide, chunkText_soft_cap "abcde".data 3 "abcde".data (by decide) (by decide)⟩

/-- C6 — Chunk round-trip / order preservation: joining the chunks of
`chunkText` with the blank-line separator yields exactly the document's
trimmed nonempty paragraphs joined by the blank-line separator. -/
theorem chunkText_join_roundtrip (text : List Char) (maxLen : Nat) :
    joinSep nl2 (chunkText text maxLen) = joinSep nl2 (jsParagraphs text) := by
  have hnn : ∀ p ∈ jsParagraphs text, p ≠ [] := by
    intro p hp
    have := List.of_mem_filter hp
    simpa using this
  have h := @chunkGo_join maxLen (jsParagraphs text) hnn []
  simpa [chunkText] using h

/-- `jsIncludes` decides substring occurrence. -/
theorem jsIncludes_iff (t q : List Char) :
    jsIncludes t q = true ↔ ∃ i, substrOccursAt t q i := by
  unfold jsIncludes
  rw [List.any_eq_true]
  constructor
  · rintro ⟨i, hi, heq⟩
    have hi' : i < t.length + 1 := List.mem_range.mp hi
    have heq' : (t.drop i).take q.length = q := by
      exact beq_iff_eq.mp heq
    refine ⟨i, ?_, heq'⟩
    have hlen : ((t.drop i).take q.length).length = q.length := by rw [heq']
    rw [List.length_take, List.length_drop] at hlen
    omega
  · rintro ⟨i, hle, heq⟩
    refine ⟨i, List.mem_range.mpr (by omega), beq_iff_eq.mpr heq⟩

/-- `wbMatch` decides word-boundary-delimited occurrence. -/
theorem wbMatch_iff (t q : List Char) :
    wbMatch t q = true ↔
      ∃ i, substrOccursAt t q i ∧ boundaryAt t i = true ∧ boundaryAt t (i + q.length) = true := by
  unfold wbMatch
  rw [List.any_eq_true]
  constructor
  · rintro ⟨i, hi, hall⟩
    have hi' : i < t.length + 1 := List.mem_range.mp hi
    rw [Bool.and_eq_true, Bool.and_eq_true] at hall
    obtain ⟨⟨heq, hb1⟩, hb2⟩ := hall
    have heq' : (t.drop i).take q.length = q := beq_iff_eq.mp heq
    have hlen : ((t.drop i).take q.length).length = q.length := by rw [heq']
    rw [List.length_take, List.length_drop] at hlen
    exact ⟨i, ⟨by omega, heq'⟩, hb1, hb2⟩
  · rintro ⟨i, ⟨hle, heq⟩, hb1, hb2⟩
    refine ⟨i, List.mem_range.mpr (by omega), ?_⟩
    rw [Bool.and_eq_true, Bool.and_eq_true]
    exact ⟨⟨beq_iff_eq.mpr heq, hb1⟩, hb2⟩

/-- C7 — Term-matching rule of `containsTerm`: a purely numeric term of
length at least 6 matches by plain substring containment of the
(lowercased, trimmed) term in the lowercased text; any other nonempty
term matches only when an occurrence is delimited by word boundaries on
both sides.  In particular alias `"ana"` does not match
`"I like banana bread"` but matches `"is ana available?"`, and the
numeric alias `"6822198682"` matches `"call 6822198682 now"`. -/
theorem containsTerm_matching_rules :
    (∀ text term, isNumericId (jsTrim (term.map lowerChar)) = true →
      (containsTerm text term = true ↔
        ∃ i, substrOccursAt (text.map lowerChar) (jsTrim (term.map lowerChar)) i))
    ∧ (∀ text term, jsTrim (term.map lowerChar) ≠ [] →
        isNumericId (jsTrim (term.map lowerChar)) = false →
      (containsTerm text term = true ↔
        ∃ i, substrOccursAt (text.map lowerChar) (jsTrim (term.map lowerChar)) i
          ∧ boundaryAt (text.map lowerChar) i = true
          ∧ boundaryAt (text.map lowerChar) (i + (jsTrim (term.map lowerChar)).length) = true))
    ∧ containsTerm "I like banana bread".data "ana".data = false
    ∧ containsTerm "is ana available?".data "ana".data = true
    ∧ containsTerm "call 6822198682 now".data "6822198682".data = true := by
  refine ⟨?_, ?_, by decide, by decide, by decide⟩
  · intro text term h
    have h6 : 6 ≤ (jsTrim (term.map lowerChar)).length := by
      have h' := h
      unfold isNumericId at h'
      rw [Bool.and_eq_true] at h'
      exact of_decide_eq_true h'.1
    have hq : (jsTrim (term.map lowerChar)).isEmpty = false := by
      cases hqq : jsTrim (term.map lowerChar) with
      | nil => rw [hqq] at h6; simp at h6
      | cons _ _ => rfl
    simp only [containsTerm, hq, h, Bool.false_eq_true, if_false, if_true]
    exact jsIncludes_iff _ _
  · intro text term hne h
    have hq : (jsTrim (term.map lowerChar)).isEmpty = false := by
      cases hqq : jsTrim (term.map lowerChar) with
      | nil => exact absurd hqq hne
      | cons _ _ => rfl
    simp only [containsTerm, hq, h, Bool.false_eq_true, if_false]
    exact wbMatch_iff _ _

/-- Witness for C7: instantiating the numeric rule at the phone-number
example produces a concrete substring occurrence. -/
theorem containsTerm_matching_rules_witness :
    ∃ i, substrOccursAt ("call 6822198682 now".data.map lowerChar)
        (jsTrim ("6822198682".data.map lowerChar)) i :=
  (containsTerm_matching_rules.1 "call 6822198682 now".data "6822198682".data
    (by decide)).mp (by decide)

/-- Membership in a stable insertion is membership in the inserted
element or the old list. -/
theorem mem_insertScoreDesc {α : Type} (key : α → Nat) (x : α) :
    ∀ (l : List α) (a : α), a ∈ insertScoreDesc key x l ↔ a = x ∨ a ∈ l := by
  intro l
  induction l with
  | nil => intro a; simp [insertScoreDesc]
  | cons y ys ih =>
    intro a
    simp only [insertScoreDesc]
    split
    · simp [List.mem_cons]
    · simp only [List.mem_cons, ih]
      tauto

/-- Membership through the sorting fold. -/
theorem mem_sort_fold {α : Type} (key : α → Nat) :
    ∀ (l acc : List α) (a : α),
      a ∈ l.foldl (fun acc x => insertScoreDesc key x acc) acc ↔ a ∈ acc ∨ a ∈ l := by
  intro l
  induction l with
  | nil => intro acc a; simp
  | cons x xs ih =>
    intro acc a
    simp only [List.foldl_cons, ih, mem_insertScoreDesc, List.mem_cons]
    tauto

/-- The stable sort is membership-preserving. -/
theorem mem_jsStableSortDesc {α : Type} (key : α → Nat) (l : List α) (a : α) :
    a ∈ jsStableSortDesc key l ↔ a ∈ l := by
  unfold jsStableSortDesc
  rw [mem_sort_fold]
  simp

/-- Stable insertion preserves descending sortedness by the key. -/
theorem insertScoreDesc_pairwise {α : Type} (key : α → Nat) (x : α) :
    ∀ (l : List α), l.Pairwise (fun a b => key b ≤ key a) →
      (insertScoreDesc key x l).Pairwise (fun a b => key b ≤ key a) := by
  intro l
  induction l with
  | nil => intro _; simp [insertScoreDesc]
  | cons y ys ih =>
    intro hp
    rw [List.pairwise_cons] at hp
    obtain ⟨hy, hys⟩ := hp
    simp only [insertScoreDesc]
    split
    · rename_i hlt
      rw [List.pairwise_cons]
      refine ⟨?_, by rw [List.pairwise_cons]; exact ⟨hy, hys⟩⟩
      intro b hb
      rcases List.mem_cons.mp hb with h | h
      · exact le_of_lt (h ▸ hlt)
      · exact le_trans (hy b h) (le_of_lt hlt)
    · rename_i hge
      rw [List.pairwise_cons]
      refine ⟨?_, ih hys⟩
      intro b hb
      rcases (mem_insertScoreDesc key x ys b).mp hb with h | h
      · subst h
        omega
      · exact hy b h

/-- The stable sort yields a list sorted descending by the key. -/
theorem jsStableSortDesc_sorted {α : Type} (key : α → Nat) (l : List α) :
    (jsStableSortDesc key l).Pairwise (fun a b => key b ≤ key a) := by
  unfold jsStableSortDesc
  suffices h : ∀ (l acc : List α), acc.Pairwise (fun a b => key b ≤ key a) →
      (l.foldl (fun acc x => insertScoreDesc key x acc) acc).Pairwise (fun a b => key b ≤ key a) by
    exact h l [] (by simp)
  intro l
  induction l with
  | nil => intro acc h; exact h
  | cons x xs ih => intro acc h; exact ih _ (insertScoreDesc_pairwise key x acc h)

/-- Stable insertion of an element with a larger index than everything
already placed preserves the stability order. -/
theorem insertScoreDesc_pairwise_lex {β : Type} (key : β → Nat) (x : Nat × β) :
    ∀ (l : List (Nat × β)), l.Pairwise (lexIdxDesc key) → (∀ y ∈ l, y.1 < x.1) →
      (insertScoreDesc (fun p => key p.2) x l).Pairwise (lexIdxDesc key) := by
  intro l
  induction l with
  | nil => intro _ _; simp [insertScoreDesc]
  | cons y ys ih =>
    intro hp hidx
    rw [List.pairwise_cons] at hp
    obtain ⟨hy, hys⟩ := hp
    simp only [insertScoreDesc]
    split
    · rename_i hlt
      rw [List.pairwise_cons]
      refine ⟨?_, by rw [List.pairwise_cons]; exact ⟨hy, hys⟩⟩
      intro b hb
      rcases List.mem_cons.mp hb with h | h
      · exact Or.inl (h ▸ hlt)
      · rcases hy b h with h' | h'
        · exact Or.inl (lt_trans h' hlt)
        · exact Or.inl (h'.1 ▸ hlt)
    · rename_i hge
      rw [List.pairwise_cons]
      refine ⟨?_, ih hys (fun y' hy' => hidx y' (List.mem_cons_of_mem _ hy'))⟩
      intro b hb
      rcases (mem_insertScoreDesc _ x ys b).mp hb with h | h
      · rw [h]
        rcases Nat.lt_or_ge (key x.2) (key y.2) with h' | h'
        · exact Or.inl h'
        · exact Or.inr ⟨by omega, hidx y (List.mem_cons_self _ _)⟩
      · exact hy b h

/-- Sorting an index-tagged list whose indices increase left to right
produces the stability order: descending key, ties by index. -/
theorem sort_fold_pairwise_lex {β : Type} (key : β → Nat) :
    ∀ (l acc : List (Nat × β)), acc.Pairwise (lexIdxDesc key) →
      (∀ a ∈ acc, ∀ b ∈ l, a.1 < b.1) → l.Pairwise (fun a b => a.1 < b.1) →
      (l.foldl (fun acc x => insertScoreDesc (fun p => key p.2) x acc) acc).Pairwise (lexIdxDesc key) := by
  intro l
  induction l with
  | nil => intro acc hacc _ _; exact hacc
  | cons x xs ih =>
    intro acc hacc hcross hl
    rw [List.pairwise_cons] at hl
    obtain ⟨hx, hxs⟩ := hl
    refine ih (insertScoreDesc (fun p => key p.2) x acc) ?_ ?_ hxs
    · exact insertScoreDesc_pairwise_lex key x acc hacc
        (fun y hy => hcross y hy x (List.mem_cons_self _ _))
    · intro a ha b hb
      rcases (mem_insertScoreDesc _ x acc a).mp ha with h | h
      · exact h ▸ hx b hb
      · exact hcross a h b (List.mem_cons_of_mem _ hb)

/-- Indices in `enumFrom` are pairwise increasing. -/
theorem enumFrom_pairwise_fst_lt {β : Type} :
    ∀ (l : List β) (n : Nat), (l.enumFrom n).Pairwise (fun a b => a.1 < b.1) := by
  intro l
  induction l with
  | nil => intro n; simp
  | cons x xs ih =>
    intro n
    simp only [List.enumFrom]
    rw [List.pairwise_cons]
    refine ⟨?_, ih (n + 1)⟩
    intro b hb
    have := List.le_fst_of_mem_enumFrom hb
    omega

/-- Projecting the values out of a filtered enumeration gives the plain
filtered list. -/
theorem map_snd_enumFrom_filter {β : Type} (p : β → Bool) :
    ∀ (l : List β) (n : Nat),
      (((l.enumFrom n).filter (fun x => p x.2)).map Prod.snd) = l.filter p := by
  intro l
  induction l with
  | nil => intro n; rfl
  | cons x xs ih =>
    intro n
    simp only [List.enumFrom, List.filter]
    cases hp : p x with
    | true => simp [ih]
    | false => simp [ih]

/-- Stable insertion commutes with mapping, for a key computed through
the map. -/
theorem insertScoreDesc_map {α β : Type} (key : β → Nat) (f : α → β) (x : α) :
    ∀ (l : List α),
      insertScoreDesc key (f x) (l.map f) = (insertScoreDesc (fun a => key (f a)) x l).map f := by
  intro l
  induction l with
  | nil => rfl
  | cons y ys ih =>
    simp only [List.map_cons, insertScoreDesc]
    split
    · rfl
    · simp [ih]

/-- The stable sort commutes with mapping, for a key computed through
the map. -/
theorem jsStableSortDesc_map {α β : Type} (key : β → Nat) (f : α → β) (l : List α) :
    jsStableSortDesc key (l.map f) = (jsStableSortDesc (fun a => key (f a)) l).map f := by
  unfold jsStableSortDesc
  suffices h : ∀ (l acc : List α),
      (l.map f).foldl (fun acc x => insertScoreDesc key x acc) (acc.map f)
        = (l.foldl (fun acc x => insertScoreDesc (fun a => key (f a)) x acc) acc).map f by
    exact h l []
  intro l
  induction l with
  | nil => intro acc; rfl
  | cons x xs ih =>
    intro acc
    simp only [List.map_cons, List.foldl_cons]
    rw [insertScoreDesc_map key f x acc, ih]

/-- Counting by a left fold that adds one per satisfied element. -/
theorem foldl_count {β : Type} (p : β → Bool) :
    ∀ (l : List β) (n : Nat),
      l.foldl (fun s t => if p t then s + 1 else s) n = n + l.countP p := by
  intro l
  induction l with
  | nil => intro n; simp
  | cons x xs ih =>
    intro n
    simp only [List.foldl_cons, List.countP_cons]
    cases hp : p x with
    | true =>
      have h1 : (if true = true then n + 1 else n) = n + 1 := rfl
      have h2 : (if true = true then 1 else 0) = 1 := rfl
      rw [h1, h2, ih]
      omega
    | false =>
      have h1 : (if false = true then n + 1 else n) = n := rfl
      have h2 : (if false = true then 1 else 0) = 0 := rfl
      rw [h1, h2, ih]
      omega

/-- The per-chunk score of the source agrees with the amended score
formula. -/
theorem chunkScore_eq_amended (query : List Char) (ch : Chunk) :
    chunkScore (query.map lowerChar) ch = amendedChunkScore query ch := by
  simp only [chunkScore, amendedChunkScore]
  rw [foldl_count (fun term => jsIncludes (ch.text.map lowerChar) term)]
  split <;> omega

/-- Every element of a retrieval result is a scored element of the pool
with a positive score. -/
theorem mem_retrieveByKeywords (query : List Char) (pool : List Chunk) (k : Nat)
    (sc : ScoredChunk) (h : sc ∈ retrieveByKeywords query pool k) :
    ∃ ch ∈ pool, sc = ⟨ch.source, ch.text, chunkScore (query.map lowerChar) ch⟩ ∧ 0 < sc.score := by
  unfold retrieveByKeywords at h
  have h1 := List.mem_of_mem_take h
  rw [mem_jsStableSortDesc] at h1
  rw [List.mem_filter] at h1
  obtain ⟨h2, h3⟩ := h1
  unfold scoredChunks at h2
  obtain ⟨ch, hch, rfl⟩ := List.mem_map.mp h2
  exact ⟨ch, hch, rfl, by simpa using h3⟩

/-- C3 (amended) — Retrieval score definition: the scoring stage of
`retrieveByKeywords` assigns every chunk the amended score (terms counted
with multiplicity; bonus keyed on the source with its first `".md"`
removed), and consequently every returned chunk carries that score. -/
theorem retrieveByKeywords_score_spec (query : List Char) (pool : List Chunk) (k : Nat) :
    scoredChunks (query.map lowerChar) pool
      = pool.map (fun ch => ⟨ch.source, ch.text, amendedChunkScore query ch⟩)
    ∧ ∀ sc ∈ retrieveByKeywords query pool k,
        sc.score = amendedChunkScore query ⟨sc.source, sc.text⟩ := by
  constructor
  · unfold scoredChunks
    exact List.map_congr_left (fun ch _ => by rw [chunkScore_eq_amended])
  · intro sc hsc
    obtain ⟨ch, _, rfl, _⟩ := mem_retrieveByKeywords query pool k sc hsc
    exact chunkScore_eq_amended query ch

/-- Counterexample for C3 as stated: the source counts duplicate query
terms once each per occurrence in the term list (query `"rates rates"`
scores the chunk 2, the claimed distinct-term count gives 1), and its
file-name bonus removes the first `".md"` occurrence rather than the
extension (source `"v.mdx"`, query `"v"`: the source scores 0 and returns
nothing, the claimed formula gives 2). -/
theorem retrieveByKeywords_score_claim_cex :
    ((retrieveByKeywords "rates rates".data [⟨"b.md".data, "rates".data⟩] 6).map
        (fun sc => sc.score) = [2]
      ∧ claimChunkScore "rates rates".data ⟨"b.md".data, "rates".data⟩ = 1)
    ∧ ((retrieveByKeywords "v".data [⟨"v.mdx".data, "zzz".data⟩] 6) = []
      ∧ claimChunkScore "v".data ⟨"v.mdx".data, "zzz".data⟩ = 2) := by
  exact ⟨⟨by decide, by decide⟩, by decide, by decide⟩

/-- Witness for C3 (amended): the top chunk for the spec's example query
carries exactly the amended score. -/
theorem retrieveByKeywords_score_spec_witness :
    (⟨"a.md".data, "rates are seventy five".data, 4⟩ : ScoredChunk).score
      = amendedChunkScore "what are your rates".data
          ⟨"a.md".data, "rates are seventy five".data⟩ :=
  (retrieveByKeywords_score_spec "what are your rates".data
    [⟨"a.md".data, "rates are seventy five".data⟩,
     ⟨"b.md".data, "dallas texas location".data⟩] 6).2
    ⟨"a.md".data, "rates are seventy five".data, 4⟩ (by decide)

/-- C4 — Retrieval result shape: the result of `retrieveByKeywords`
contains only positive-scoring chunks, has length at most `k`, is sorted
in descending score order, and is an initial segment of the stable
descending sort of the positively-scoring chunks tagged with their
original pool positions — ties are broken by original pool order. -/
theorem retrieveByKeywords_shape (query : List Char) (pool : List Chunk) (k : Nat) :
    (∀ sc ∈ retrieveByKeywords query pool k, 0 < sc.score)
    ∧ (retrieveByKeywords query pool k).length ≤ k
    ∧ (retrieveByKeywords query pool k).Pairwise (fun a b => b.score ≤ a.score)
    ∧ ∃ tagged : List (Nat × ScoredChunk),
        tagged.map Prod.snd = retrieveByKeywords query pool k
        ∧ (∀ p ∈ tagged,
            p ∈ ((scoredChunks (query.map lowerChar) pool).enumFrom 0).filter
                  (fun x : Nat × ScoredChunk => 0 < x.2.score))
        ∧ tagged.Pairwise (lexIdxDesc (fun sc : ScoredChunk => sc.score)) := by
  refine ⟨?_, ?_, ?_, ?_⟩
  · intro sc hsc
    obtain ⟨_, _, _, hpos⟩ := mem_retrieveByKeywords query pool k sc hsc
    exact hpos
  · exact List.length_take_le _ _
  · unfold retrieveByKeywords
    exact (jsStableSortDesc_sorted (fun sc : ScoredChunk => sc.score) _).sublist
      (List.take_sublist _ _)
  · refine ⟨(jsStableSortDesc (fun p : Nat × ScoredChunk => p.2.score)
        (((scoredChunks (query.map lowerChar) pool).enumFrom 0).filter
          (fun x : Nat × ScoredChunk => 0 < x.2.score))).take k,
      ?_, ?_, ?_⟩
    · rw [List.map_take]
      unfold retrieveByKeywords
      rw [← jsStableSortDesc_map (fun sc : ScoredChunk => sc.score) Prod.snd,
          map_snd_enumFrom_filter (fun sc : ScoredChunk => decide (0 < sc.score))
            (scoredChunks (query.map lowerChar) pool) 0]
    · intro p hp
      have h1 := List.mem_of_mem_take hp
      rw [mem_jsStableSortDesc] at h1
      exact h1
    · refine List.Pairwise.sublist (List.take_sublist _ _) ?_
      unfold jsStableSortDesc
      refine sort_fold_pairwise_lex (fun sc : ScoredChunk => sc.score) _ [] (by simp) (by simp) ?_
      exact ((enumFrom_pairwise_fst_lt _ 0).filter _)

/-- Witness for C4: on the spec's example pool, the single returned chunk
has a positive score. -/
theorem retrieveByKeywords_shape_witness :
    (0 : Nat) < (⟨"a.md".data, "rates are seventy five".data, 4⟩ : ScoredChunk).score :=
  (retrieveByKeywords_shape "what are your rates".data
    [⟨"a.md".data, "rates are seventy five".data⟩,
     ⟨"b.md".data, "dallas texas location".data⟩] 6).1
    ⟨"a.md".data, "rates are seventy five".data, 4⟩ (by decide)

/-- C1 — Knowledge isolation: when the active persona's `knowledgeFiles`
is the list `L`, every chunk retrieved for the grounding text comes from
a file in `L`, and the assembled grounding text does not depend on any
chunk whose source is outside `L`: two knowledge pools that agree on the
chunks with sources in `L` produce identical grounding text
(noninterference over the knowledge pool). -/
theorem knowledge_isolation (legacy : LegacyProfile) (st : Store) (pool1 pool2 : List Chunk)
    (requestedId : Option (List Char)) (msg : List Char) (L : List (List Char))
    (hL : (getActiveProfile st requestedId msg).profile.knowledgeFiles = some L)
    (hpool : pool1.filter (fun ch => L.contains ch.source)
      = pool2.filter (fun ch => L.contains ch.source)) :
    (∀ sc ∈ retrieveByKeywords msg
        (getKnowledgePoolForProfile (getActiveProfile st requestedId msg) pool1) 6,
      sc.source ∈ L)
    ∧ buildAssistantInstructions legacy st pool1 msg requestedId
      = buildAssistantInstructions legacy st pool2 msg requestedId := by
  have hfilter : getKnowledgePoolForProfile (getActiveProfile st requestedId msg) pool1
      = pool1.filter (fun ch => L.contains ch.source) := by
    unfold getKnowledgePoolForProfile
    rw [hL]
  constructor
  · intro sc hsc
    rw [hfilter] at hsc
    obtain ⟨ch, hch, rfl, _⟩ := mem_retrieveByKeywords _ _ _ sc hsc
    have := List.of_mem_filter hch
    exact List.mem_of_elem_eq_true this
  · have hpools : getKnowledgePoolForProfile (getActiveProfile st requestedId msg) pool1
        = getKnowledgePoolForProfile (getActiveProfile st requestedId msg) pool2 := by
      unfold getKnowledgePoolForProfile
      rw [hL]
      exact hpool
    simp only [buildAssistantInstructions]
    rw [hpools]

/-- Witness for C1: a persona restricted to `public.md` retrieves nothing
from a pool holding only a `private.md` chunk, and assembling against
that pool or against the empty pool yields the same grounding text. -/
theorem knowledge_isolation_witness :
    (∀ sc ∈ retrieveByKeywords "hi".data
        (getKnowledgePoolForProfile
          (getActiveProfile ⟨"p".data, [("p".data,
            ⟨none, none, none, none, none, none, some ["public.md".data]⟩)]⟩
            (some "p".data) "hi".data)
          [⟨"private.md".data, "hi secret".data⟩]) 6,
      sc.source ∈ ["public.md".data])
    ∧ buildAssistantInstructions ⟨none, none, none⟩
        ⟨"p".data, [("p".data, ⟨none, none, none, none, none, none, some ["public.md".data]⟩)]⟩
        [⟨"private.md".data, "hi secret".data⟩] "hi".data (some "p".data)
      = buildAssistantInstructions ⟨none, none, none⟩
        ⟨"p".data, [("p".data, ⟨none, none, none, none, none, none, some ["public.md".data]⟩)]⟩
        [] "hi".data (some "p".data) :=
  knowledge_isolation ⟨none, none, none⟩
    ⟨"p".data, [("p".data, ⟨none, none, none, none, none, none, some ["public.md".data]⟩)]⟩
    [⟨"private.md".data, "hi secret".data⟩] [] (some "p".data) "hi".data
    ["public.md".data] (by decide) (by decide)

/-- Counterexample for C2 as stated: the source trims the requested id
before the lookup, so requesting `" ana "` resolves to persona `"ana"`
even though no persona id case-insensitively equals `" ana "` — the
claimed rules would instead fall through to inference and return
persona `"bob"`, which the message mentions. -/
theorem getActiveProfile_claim_cex :
    (getActiveProfile ⟨"default".data, [("ana".data, emptyProfile), ("bob".data, emptyProfile)]⟩
        (some " ana ".data) "bob".data).id = "ana".data
    ∧ (claimResolve ⟨"default".data, [("ana".data, emptyProfile), ("bob".data, emptyProfile)]⟩
        (some " ana ".data) "bob".data).id = "bob".data
    ∧ getActiveProfile ⟨"default".data, [("ana".data, emptyProfile), ("bob".data, emptyProfile)]⟩
        (some " ana ".data) "bob".data
      ≠ claimResolve ⟨"default".data, [("ana".data, emptyProfile), ("bob".data, emptyProfile)]⟩
        (some " ana ".data) "bob".data := by
  exact ⟨by decide, by decide, by decide⟩

/-- C2 (amended) — Resolver precedence: `getActiveProfile` returns
(1) the persona stored under the trimmed, lowercased requested id when
that normalized id is nonempty and is a key of the mapping; otherwise
(2) the persona of the first insertion-order entry whose term set matches
the message (its normalized id), provided that normalized id is nonempty
and is a key of the mapping; otherwise (3) the persona stored under the
normalized default pointer (an empty pointer is treated as `"default"`);
otherwise (4) the bare persona `{ id: "default" }` — in every case a
persona is returned, never an error. -/
theorem getActiveProfile_precedence (st : Store) (requestedId : Option (List Char)) (msg : List Char) :
    (∀ p, normalizeProfileId (requestedId.getD []) ≠ [] →
      st.profiles.lookup (normalizeProfileId (requestedId.getD [])) = some p →
      getActiveProfile st requestedId msg = ⟨normalizeProfileId (requestedId.getD []), p⟩)
    ∧ ((normalizeProfileId (requestedId.getD []) = [] ∨
          st.profiles.lookup (normalizeProfileId (requestedId.getD [])) = none) →
        ∀ i p, inferProfileIdFromMessage st msg = some i → i ≠ [] →
          st.profiles.lookup i = some p →
          getActiveProfile st requestedId msg = ⟨i, p⟩)
    ∧ ((normalizeProfileId (requestedId.getD []) = [] ∨
          st.profiles.lookup (normalizeProfileId (requestedId.getD [])) = none) →
        (∀ i, inferProfileIdFromMessage st msg = some i →
          i = [] ∨ st.profiles.lookup i = none) →
        ∀ p, st.profiles.lookup (if (normalizeProfileId st.default).isEmpty
            then defaultId else normalizeProfileId st.default) = some p →
          getActiveProfile st requestedId msg
            = ⟨if (normalizeProfileId st.default).isEmpty
                then defaultId else normalizeProfileId st.default, p⟩)
    ∧ ((normalizeProfileId (requestedId.getD []) = [] ∨
          st.profiles.lookup (normalizeProfileId (requestedId.getD [])) = none) →
        (∀ i, inferProfileIdFromMessage st msg = some i →
          i = [] ∨ st.profiles.lookup i = none) →
        st.profiles.lookup (if (normalizeProfileId st.default).isEmpty
            then defaultId else normalizeProfileId st.default) = none →
        getActiveProfile st requestedId msg = ⟨defaultId, emptyProfile⟩) := by
  have hreq0 : (normalizeProfileId (requestedId.getD []) = [] ∨
        st.profiles.lookup (normalizeProfileId (requestedId.getD [])) = none) →
      (if (normalizeProfileId (requestedId.getD [])).isEmpty = true
        then (none : Option Profile)
        else st.profiles.lookup (normalizeProfileId (requestedId.getD []))) = none := by
    intro h12
    rcases h12 with h | h
    · simp [h]
    · split
      · rfl
      · exact h
  have hinner0 : (∀ i, inferProfileIdFromMessage st msg = some i →
        i = [] ∨ st.profiles.lookup i = none) →
      (match inferProfileIdFromMessage st msg with
        | some i => if i.isEmpty = true then none
            else (st.profiles.lookup i).map (fun p => (⟨i, p⟩ : ActiveProfile))
        | none => none) = none := by
    intro hnoinf
    cases hi : inferProfileIdFromMessage st msg with
    | none => rfl
    | some i =>
      rcases hnoinf i hi with h | h
      · simp [h]
      · simp [h]
  refine ⟨?_, ?_, ?_, ?_⟩
  · intro p hne hlook
    have he : (normalizeProfileId (requestedId.getD [])).isEmpty = false := by
      cases h' : normalizeProfileId (requestedId.getD []) with
      | nil => exact absurd h' hne
      | cons _ _ => rfl
    simp only [getActiveProfile, he, Bool.false_eq_true, if_false, hlook]
  · intro h12 i p hinf hine hlook
    have hie : i.isEmpty = false := by
      cases h' : i with
      | nil => exact absurd h' hine
      | cons _ _ => rfl
    simp only [getActiveProfile, hreq0 h12, hinf, hie, Bool.false_eq_true, if_false,
      hlook, Option.map_some']
  · intro h12 hnoinf p hlook
    simp only [getActiveProfile, hreq0 h12, hinner0 hnoinf, hlook]
  · intro h12 hnoinf hlook
    simp only [getActiveProfile, hreq0 h12, hinner0 hnoinf, hlook]

/-- Witness for C2 (amended): a requested id that needs trimming and
lowercasing resolves to the persona stored under the normalized key. -/
theorem getActiveProfile_precedence_witness :
    getActiveProfile ⟨"default".data, [("ana".data, emptyProfile)]⟩ (some " Ana ".data) "hi".data
      = ⟨normalizeProfileId ((some " Ana ".data).getD []), emptyProfile⟩ :=
  (getActiveProfile_precedence ⟨"default".data, [("ana".data, emptyProfile)]⟩
    (some " Ana ".data) "hi".data).1 emptyProfile (by decide) (by decide)

/-- C8 — Fails-open loading: a missing, unreadable or unparsable profiles
file (the `error` outcome of the external read + parse) and a parsed
value that is falsy or not of object type both yield the canonical empty
store, and a missing or unreadable knowledge directory yields the empty
chunk pool; both loaders are total, so no error propagates. -/
theorem load_fails_open :
    (∀ e, loadProfiles (Except.error e) = canonicalStore)
    ∧ (∀ j, jsTruthy j = false ∨ jsIsObjectType j = false →
        loadProfiles (Except.ok j) = canonicalStore)
    ∧ (∀ e, loadKnowledge (Except.error e) = []) := by
  refine ⟨fun e => rfl, ?_, fun e => rfl⟩
  intro j h
  simp only [loadProfiles, normalizeProfiles]
  rcases h with h | h <;> rw [h] <;> simp

/-- Witness for C8: the parse result `0` (truthy check fails) normalizes
to the canonical empty store. -/
theorem load_fails_open_witness :
    loadProfiles (Except.ok (Json.num 0)) = canonicalStore :=
  load_fails_open.2.1 (Json.num 0) (Or.inl (by decide))

/-- C9 — History truncation: a request with 30 well-formed prior turns
forwards exactly the most recent 20 of them, in order, followed by the
new user message. -/
theorem chat_history_truncation (ts : List Json) (message : List Char)
    (hlen : ts.length = 30) (hvalid : ∀ t ∈ ts, validTurn t = true) :
    chatMessages (Json.arr ts) message = (ts.drop 10).map toMsg ++ [⟨userRole, message⟩] := by
  have hf : ts.filter validTurn = ts := List.filter_eq_self.mpr hvalid
  simp only [chatMessages, safeHistory, hf, hlen]

/-- Witness for C9: 30 concrete valid turns are truncated to the last
20. -/
theorem chat_history_truncation_witness :
    chatMessages
        (Json.arr (List.replicate 30 (Json.obj
          [("role".data, Json.str "user".data), ("content".data, Json.str "hi".data)])))
        "q".data
      = ((List.replicate 30 (Json.obj
          [("role".data, Json.str "user".data), ("content".data, Json.str "hi".data)])).drop 10).map
            toMsg ++ [⟨userRole, "q".data⟩] :=
  chat_history_truncation _ _ (by decide) (by decide)

/-- A history entry that passed the handler's filter has role `"user"` or
`"assistant"`. -/
theorem roleOf_of_validTurn (j : Json) (h : validTurn j = true) :
    roleOf j = userRole ∨ roleOf j = assistantRole := by
  unfold validTurn at h
  rw [Bool.and_eq_true, Bool.and_eq_true] at h
  obtain ⟨_, hrole, _⟩ := h
  unfold roleOf
  cases hget : jsGetField j ("role".data) with
  | none => rw [hget] at hrole; simp at hrole
  | some jv =>
    cases jv with
    | str s =>
      rw [hget] at hrole
      rw [Bool.or_eq_true] at hrole
      rcases hrole with h' | h'
      · exact Or.inl (beq_iff_eq.mp h')
      · exact Or.inr (beq_iff_eq.mp h')
    | null => rw [hget] at hrole; simp at hrole
    | bool b => rw [hget] at hrole; simp at hrole
    | num n => rw [hget] at hrole; simp at hrole
    | arr xs => rw [hget] at hrole; simp at hrole
    | obj fs => rw [hget] at hrole; simp at hrole

/-- C10 — Implicit history sanitization: every forwarded turn except the
final new user message has role `"user"` or `"assistant"` (and, by the
type of `Msg`, string content); a non-array history is treated as empty;
and entries dropped by the validity filter cannot influence the forwarded
messages, so malformed history never fails the request. -/
theorem chat_history_sanitization :
    (∀ history message, ∀ m ∈ (chatMessages history message).dropLast,
      m.role = userRole ∨ m.role = assistantRole)
    ∧ (∀ history message, jsIsArray history = false →
        chatMessages history message = [⟨userRole, message⟩])
    ∧ (∀ ts1 ts2 message, ts1.filter validTurn = ts2.filter validTurn →
        chatMessages (Json.arr ts1) message = chatMessages (Json.arr ts2) message) := by
  refine ⟨?_, ?_, ?_⟩
  · intro history message m hm
    rw [chatMessages, List.dropLast_concat] at hm
    obtain ⟨j, hj, rfl⟩ := List.mem_map.mp hm
    have hjv : validTurn j = true := by
      cases history with
      | arr xs =>
        simp only [safeHistory] at hj
        have := List.mem_of_mem_drop hj
        exact List.of_mem_filter this
      | null => simp [safeHistory] at hj
      | bool b => simp [safeHistory] at hj
      | num n => simp [safeHistory] at hj
      | str s => simp [safeHistory] at hj
      | obj fs => simp [safeHistory] at hj
    exact roleOf_of_validTurn j hjv
  · intro history message h
    cases history with
    | arr xs => exact absurd h (by simp [jsIsArray])
    | null => rfl
    | bool b => rfl
    | num n => rfl
    | str s => rfl
    | obj fs => rfl
  · intro ts1 ts2 message h
    simp only [chatMessages, safeHistory, h]

/-- Witness for C10: a numeric (non-array) history is treated as empty,
leaving only the new user message. -/
theorem chat_history_sanitization_witness :
    chatMessages (Json.num 0) "hi".data = [⟨userRole, "hi".data⟩] :=
  chat_history_sanitization.2.1 (Json.num 0) "hi".data (by decide)

end Portfolio
